import Mathlib

/-!
Verification of the JMV-DAS streaming waterfall pipeline.

Shallow embedding of the core pipeline code:
  * `app/transformers/waterfall_transform.py` (rolling MSE energy, percentile
    and absolute-range scaling, gamma/invert/uint8 post-processing),
  * `backend/acquisition.py` (block decoding and the bounded drop-oldest queue),
  * `app/ui/main_window.py` (the per-stream latest-frame cache and the
    click-to-column mapping),
  * `app/viz/waterfall_renderer.py` (the scrolling waterfall buffer).

float32 values are modelled as exact rationals (`ℚ`); machine floats have no
NaN/Inf counterpart here, so `np.isfinite` guards are identically true in the
model.  `np.power` with an arbitrary real exponent has no exact rational
counterpart, so the gamma-power primitive is an explicit function parameter
`powFn` about which nothing is assumed; every theorem below either quantifies
over it or exercises configurations where the source skips it.
-/

open BigOperators

/- ----------------------------------------------------------------- -/
/- Transform engine: `WaterfallTransform._rolling_mse_energy`         -/
/- ----------------------------------------------------------------- -/

/-- Cumulative sum over the time axis of the squared grid:
`csum = np.cumsum(x * x, axis=0)`, so `csumSq x t p = Σ_{s ≤ t} x[s][p]²`. -/
def csumSq (x : ℕ → ℕ → ℚ) (t p : ℕ) : ℚ :=
  ∑ s in Finset.range (t + 1), x s p ^ 2

/-- Embedding of `WaterfallTransform._rolling_mse_energy` (waterfall_transform.py
lines 67-102).  `T` is the row count of the grid `x`; `w` the window length
(`int(win)` in the source, hence an integer that may be non-positive).

The source fills `out[:idx0+1]` with the shrinking-window values
`csum[t]/(t+1)` and then, only when `T > win`, overwrites `out[win-1:]` with
the full-window values `(csum[t] - csum[t-win])/win` (with a zero row in place of `csum[-1]`).  The conditional below reproduces the final contents:
an entry is the full-window value exactly when the second pass wrote it.
Entries at `t ≥ T` of the `np.empty` output are never written nor read by the
source; the model extends them with the shrinking-window formula and every
theorem restricts to `t < T`. -/
def rolling_mse_energy (T : ℕ) (w : ℤ) (x : ℕ → ℕ → ℚ) : ℕ → ℕ → ℚ :=
  if T = 0 then x
  else if w ≤ 1 then fun t p => x t p * x t p
  else fun t p =>
    if w.toNat < T ∧ w.toNat - 1 ≤ t then
      (csumSq x t p - (if w.toNat ≤ t then csumSq x (t - w.toNat) p else 0)) / (w.toNat : ℚ)
    else
      csumSq x t p / ((t : ℚ) + 1)

/-- Sums over `Finset.Icc 0 t` are prefix sums. -/
lemma sum_Icc_zero_eq_range (f : ℕ → ℚ) (t : ℕ) :
    ∑ s in Finset.Icc 0 t, f s = ∑ s in Finset.range (t + 1), f s := by
  rw [← Nat.Ico_succ_right, ← Finset.range_eq_Ico]

/-- C1: rolling MSE energy.  For every `T × P` grid and window length `w`:
for `w ≤ 1` the result is the instantaneous power `x[t][p]²`; for `w > 1`,
with `s` the cumulative sum of squares over rows, the entry at `t < w - 1`
is `s[t]/(t+1)` (shrinking window) and the entry at `t ≥ w - 1` is
`(s[t] - s[t-w])/w` with `s[-1] = 0`; equivalently every entry is the mean
of `x[s][p]²` over `s ∈ [max(0, t-w+1), t]`. -/
theorem rolling_mse_energy_spec (T P : ℕ) (w : ℤ) (x : ℕ → ℕ → ℚ) (t p : ℕ)
    (ht : t < T) (hp : p < P) :
    (w ≤ 1 → rolling_mse_energy T w x t p = x t p ^ 2) ∧
    (1 < w →
      ((t : ℤ) < w - 1 →
        rolling_mse_energy T w x t p = csumSq x t p / ((t : ℚ) + 1)) ∧
      (w - 1 ≤ (t : ℤ) →
        rolling_mse_energy T w x t p =
          (csumSq x t p - (if w ≤ (t : ℤ) then csumSq x (t - w.toNat) p else 0)) /
            (w.toNat : ℚ)) ∧
      rolling_mse_energy T w x t p =
        (∑ s in Finset.Icc (t + 1 - w.toNat) t, x s p ^ 2) /
          ((min w.toNat (t + 1) : ℕ) : ℚ)) := by
  have hT : ¬ T = 0 := by omega
  constructor
  · intro hw
    simp only [rolling_mse_energy, if_neg hT, if_pos hw, pow_two]
  · intro hw
    have hwn : (w.toNat : ℤ) = w := Int.toNat_of_nonneg (by omega)
    have hw2 : 2 ≤ w.toNat := by omega
    have hnotle : ¬ w ≤ 1 := by omega
    refine ⟨?_, ?_, ?_⟩
    · intro htw
      simp only [rolling_mse_energy, if_neg hT, if_neg hnotle]
      rw [if_neg (by omega : ¬ (w.toNat < T ∧ w.toNat - 1 ≤ t))]
    · intro htw
      simp only [rolling_mse_energy, if_neg hT, if_neg hnotle]
      by_cases hT2 : w.toNat < T
      · rw [if_pos ⟨hT2, by omega⟩]
        have hiff : w.toNat ≤ t ↔ w ≤ (t : ℤ) := by omega
        simp only [hiff]
      · rw [if_neg (by omega : ¬ (w.toNat < T ∧ w.toNat - 1 ≤ t))]
        have hwt : ¬ w ≤ (t : ℤ) := by omega
        rw [if_neg hwt, sub_zero]
        have hcast : (t : ℚ) + 1 = (w.toNat : ℚ) := by
          have h : t + 1 = w.toNat := by omega
          exact_mod_cast congrArg (fun n : ℕ => (n : ℚ)) h
        rw [hcast]
    · by_cases hcase : w.toNat ≤ t
      · have hT2 : w.toNat < T := by omega
        simp only [rolling_mse_energy, if_neg hT, if_neg hnotle]
        rw [if_pos ⟨hT2, by omega⟩, if_pos hcase]
        have hmin : min w.toNat (t + 1) = w.toNat := min_eq_left (by omega)
        rw [hmin]
        have harg : t - w.toNat + 1 = t + 1 - w.toNat := by omega
        simp only [csumSq, harg]
        rw [← Nat.Ico_succ_right,
          Finset.sum_Ico_eq_sub _ (by omega : t + 1 - w.toNat ≤ t + 1)]
      · have h0 : t + 1 - w.toNat = 0 := by omega
        rw [h0, sum_Icc_zero_eq_range]
        have hmin : min w.toNat (t + 1) = t + 1 := min_eq_right (by omega)
        rw [hmin]
        simp only [rolling_mse_energy, if_neg hT, if_neg hnotle]
        by_cases hcond : w.toNat < T ∧ w.toNat - 1 ≤ t
        · rw [if_pos hcond, if_neg hcase, sub_zero]
          have hcast : (t : ℚ) + 1 = (w.toNat : ℚ) := by
            have h : t + 1 = w.toNat := by omega
            exact_mod_cast congrArg (fun n : ℕ => (n : ℚ)) h
          rw [csumSq]
          push_cast
          rw [← hcast]
        · rw [if_neg hcond]
          rw [csumSq]
          push_cast
          rfl

/-- Ramp test grid: `x[t][p] = t`. -/
def xRamp : ℕ → ℕ → ℚ := fun t _ => (t : ℚ)

theorem rolling_mse_energy_spec_witness :
    (39 < 40 ∧ 0 < 4) ∧
    (((32 : ℤ) ≤ 1 → rolling_mse_energy 40 32 xRamp 39 0 = xRamp 39 0 ^ 2) ∧
     ((1 : ℤ) < 32 →
       (((39 : ℕ) : ℤ) < 32 - 1 →
         rolling_mse_energy 40 32 xRamp 39 0 = csumSq xRamp 39 0 / (((39 : ℕ) : ℚ) + 1)) ∧
       ((32 : ℤ) - 1 ≤ ((39 : ℕ) : ℤ) →
         rolling_mse_energy 40 32 xRamp 39 0 =
           (csumSq xRamp 39 0 -
             (if (32 : ℤ) ≤ ((39 : ℕ) : ℤ) then csumSq xRamp (39 - (32 : ℤ).toNat) 0 else 0)) /
             (((32 : ℤ).toNat : ℚ))) ∧
       rolling_mse_energy 40 32 xRamp 39 0 =
         (∑ s in Finset.Icc (39 + 1 - (32 : ℤ).toNat) 39, xRamp s 0 ^ 2) /
           ((min (32 : ℤ).toNat (39 + 1) : ℕ) : ℚ))) :=
  ⟨⟨by decide, by decide⟩,
    rolling_mse_energy_spec 40 4 32 xRamp 39 0 (by decide) (by decide)⟩

/- ----------------------------------------------------------------- -/
/- Transform engine: scaling and `WaterfallTransform._post_to_gray`   -/
/- ----------------------------------------------------------------- -/

/-- Truncation toward zero: the effect of numpy's `.astype(np.uint8)` / python
`int(...)` on a non-negative in-range value (C-style float-to-int cast). -/
def truncToZero (q : ℚ) : ℤ :=
  if q < 0 then -(⌊-q⌋) else ⌊q⌋

/-- Embedding of `WaterfallTransform._post_to_gray` (waterfall_transform.py
lines 142-155).  `powFn y g` models `np.power(y, g)`; the real-exponent power
has no exact rational counterpart, so it is a parameter about which nothing
is assumed.  The `np.isfinite(g)` conjunct of the source's gamma guard is
identically true in the rational model. -/
def post_to_gray (powFn : ℚ → ℚ → ℚ) (gamma : ℚ) (invert : Bool) (y01 : ℚ) : ℤ :=
  let y := if 0 < gamma ∧ 1 / 1000000 < |gamma - 1| then powFn y01 gamma else y01
  if invert then truncToZero ((1 - y) * 255) else truncToZero (y * 255)

/-- `np.clip(y, 0.0, 1.0)` on one entry. -/
def clamp01 (y : ℚ) : ℚ := min (max y 0) 1

/-- Embedding of `WaterfallTransform._absrange_to_gray` (waterfall_transform.py
lines 128-140) on one grid entry (the source maps this elementwise). -/
def absrange_to_gray (powFn : ℚ → ℚ → ℚ) (gamma : ℚ) (invert : Bool)
    (vmin vmax : ℚ) (x : ℚ) : ℤ :=
  let vmax2 := if vmax ≤ vmin then vmin + 1 / 1000000 else vmax
  post_to_gray powFn gamma invert (clamp01 ((x - vmin) / (vmax2 - vmin)))

lemma truncToZero_of_nonneg {q : ℚ} (h : 0 ≤ q) : truncToZero q = ⌊q⌋ := by
  rw [truncToZero, if_neg (by exact not_lt.mpr h)]

lemma clamp01_nonneg (y : ℚ) : 0 ≤ clamp01 y :=
  le_min (le_max_right _ _) (by norm_num)

lemma clamp01_le_one (y : ℚ) : clamp01 y ≤ 1 := min_le_right _ _

/-- C3 counterexample: with gamma = 1 and invert = false the final quantizer
sends the clamped scaled value 1/2 to `⌊127.5⌋ = 127`, not `round 127.5 = 128`
as the claim states — `.astype(np.uint8)` truncates rather than rounds. -/
theorem post_to_gray_round_counterexample :
    post_to_gray (fun y _ => y) 1 false (1 / 2) ≠ round ((1 / 2 : ℚ) * 255) := by
  have hskip : ¬ (0 < (1 : ℚ) ∧ 1 / 1000000 < |(1 : ℚ) - 1|) := by simp
  have hpost : post_to_gray (fun y _ => y) 1 false (1 / 2) = 127 := by
    simp only [post_to_gray, if_neg hskip, Bool.false_eq_true, if_false]
    rw [truncToZero_of_nonneg (by norm_num), Int.floor_eq_iff]
    norm_num
  have hround : round ((1 / 2 : ℚ) * 255) = 128 := by
    rw [round_eq, Int.floor_eq_iff]
    norm_num
  rw [hpost, hround]
  decide

/-- C3 (amended): with gamma = 1 the power step is skipped, and the final
quantization maps the clamped scaled value `y ∈ [0,1]` to `⌊y·255⌋` (after
optional inversion `1 − y`) — truncation to 8 bits, not rounding; in
particular with invert = false every output pixel of the absolute-range path
is `⌊y·255⌋` of the clamped scaled value, with no further transform applied. -/
theorem absrange_quantization_spec (powFn : ℚ → ℚ → ℚ) (invert : Bool)
    (vmin vmax x gamma : ℚ) (hg : gamma = 1) :
    (invert = false →
      absrange_to_gray powFn gamma invert vmin vmax x =
        ⌊(clamp01 ((x - vmin) /
            ((if vmax ≤ vmin then vmin + 1 / 1000000 else vmax) - vmin)) * 255)⌋) ∧
    (invert = true →
      absrange_to_gray powFn gamma invert vmin vmax x =
        ⌊(1 - clamp01 ((x - vmin) /
            ((if vmax ≤ vmin then vmin + 1 / 1000000 else vmax) - vmin))) * 255⌋) := by
  subst hg
  have hskip : ¬ (0 < (1 : ℚ) ∧ 1 / 1000000 < |(1 : ℚ) - 1|) := by simp
  have hy0 := clamp01_nonneg ((x - vmin) /
      ((if vmax ≤ vmin then vmin + 1 / 1000000 else vmax) - vmin))
  have hy1 := clamp01_le_one ((x - vmin) /
      ((if vmax ≤ vmin then vmin + 1 / 1000000 else vmax) - vmin))
  constructor
  · intro hi
    subst hi
    simp only [absrange_to_gray, post_to_gray, if_neg hskip, Bool.false_eq_true,
      if_false]
    exact truncToZero_of_nonneg (mul_nonneg hy0 (by norm_num))
  · intro hi
    subst hi
    simp only [absrange_to_gray, post_to_gray, if_neg hskip, if_true]
    exact truncToZero_of_nonneg (mul_nonneg (by linarith) (by norm_num))

theorem absrange_quantization_spec_witness :
    ((1 : ℚ) = 1) ∧
    (false = false →
      absrange_to_gray (fun y _ => y) 1 false 0 1 (1 / 2) =
        ⌊(clamp01 (((1 / 2 : ℚ) - 0) /
            ((if (1 : ℚ) ≤ 0 then 0 + 1 / 1000000 else 1) - 0)) * 255)⌋) :=
  ⟨rfl, (absrange_quantization_spec (fun y _ => y) false 0 1 (1 / 2) 1 rfl).1⟩

/- ----------------------------------------------------------------- -/
/- Transform engine: `WaterfallTransform._percentile_to_gray`         -/
/- ----------------------------------------------------------------- -/

/-- Ascending sort of the flattened grid (numpy sorts before interpolating a
percentile; over a linear order the sorted permutation is unique, so
`List.insertionSort` is an exact model of `np.sort`). -/
def sortedOf (xs : List ℚ) : List ℚ := List.insertionSort (· ≤ ·) xs

/-- Linear interpolation of a sorted list at fractional position `pos`, as in
`np.percentile(..., interpolation = linear)`: with `i = ⌊pos⌋`, the result is
`a + (pos − i)·(b − a)` where `a`, `b` are the `i`-th and `(i+1)`-th sorted
values (the `(i+1)`-th defaulting to `a` at the right edge). -/
def pAt (sorted : List ℚ) (pos : ℚ) : ℚ :=
  sorted.getD (⌊pos⌋).toNat 0 +
    (pos - (⌊pos⌋ : ℚ)) *
      (sorted.getD ((⌊pos⌋).toNat + 1) (sorted.getD (⌊pos⌋).toNat 0) -
        sorted.getD (⌊pos⌋).toNat 0)

/-- Embedding of `np.percentile(x, q)` on the flattened grid: position
`q·(n−1)/100` into the sorted values.  numpy raises on an empty array; the
model returns 0 there and every theorem assumes a non-empty grid. -/
def percentile (xs : List ℚ) (q : ℚ) : ℚ :=
  if (sortedOf xs).length = 0 then 0
  else pAt (sortedOf xs) (q * (((sortedOf xs).length : ℚ) - 1) / 100)

/-- `np.nanmin` on a non-empty rational list (no NaN exists in the model). -/
def nanmin (xs : List ℚ) : ℚ :=
  match xs with
  | [] => 0
  | x :: rest => rest.foldl min x

/-- `np.nanmax` on a non-empty rational list. -/
def nanmax (xs : List ℚ) : ℚ :=
  match xs with
  | [] => 0
  | x :: rest => rest.foldl max x

/-- The lo/hi range computed by `WaterfallTransform._percentile_to_gray`
(waterfall_transform.py lines 107-122): bump `p_hi` when it does not exceed
`p_lo`, take the two percentiles, and fall back to `[min, max + 1e-6]` when
the span is degenerate.  `np.isfinite` is identically true in the rational
model, so only the `hi − lo < 1e-12` disjunct of the degeneracy test
remains. -/
def percentile_bounds (p_lo p_hi : ℚ) (xs : List ℚ) : ℚ × ℚ :=
  let p_hi2 := if p_hi ≤ p_lo then p_lo + 1 / 1000 else p_hi
  let lo := percentile xs p_lo
  let hi := percentile xs p_hi2
  if hi - lo < 1 / 1000000000000 then (nanmin xs, nanmax xs + 1 / 1000000)
  else (lo, hi)

/-- Embedding of `WaterfallTransform._percentile_to_gray`
(waterfall_transform.py lines 107-126): scale into the computed range, clamp
to `[0,1]`, then `_post_to_gray`, elementwise over the grid. -/
def percentile_to_gray (powFn : ℚ → ℚ → ℚ) (gamma : ℚ) (invert : Bool)
    (p_lo p_hi : ℚ) (grid : List (List ℚ)) : List (List ℤ) :=
  grid.map (List.map (fun v =>
    post_to_gray powFn gamma invert
      (clamp01 ((v - (percentile_bounds p_lo p_hi grid.flatten).1) /
        ((percentile_bounds p_lo p_hi grid.flatten).2 -
          (percentile_bounds p_lo p_hi grid.flatten).1)))))

lemma foldl_min_const {c : ℚ} :
    ∀ l : List ℚ, (∀ v ∈ l, v = c) → l.foldl min c = c := by
  intro l
  induction l with
  | nil => intro _; rfl
  | cons a l ih =>
    intro h
    have ha : a = c := h a (by simp)
    simp only [List.foldl_cons, ha, min_self]
    exact ih fun v hv => h v (by simp [hv])

lemma foldl_max_const {c : ℚ} :
    ∀ l : List ℚ, (∀ v ∈ l, v = c) → l.foldl max c = c := by
  intro l
  induction l with
  | nil => intro _; rfl
  | cons a l ih =>
    intro h
    have ha : a = c := h a (by simp)
    simp only [List.foldl_cons, ha, max_self]
    exact ih fun v hv => h v (by simp [hv])

lemma nanmin_const {xs : List ℚ} {c : ℚ} (hne : xs ≠ [])
    (hall : ∀ v ∈ xs, v = c) : nanmin xs = c := by
  cases xs with
  | nil => exact absurd rfl hne
  | cons a l =>
    have ha : a = c := hall a (by simp)
    rw [nanmin, ha]
    exact foldl_min_const l fun v hv => hall v (by simp [hv])

lemma nanmax_const {xs : List ℚ} {c : ℚ} (hne : xs ≠ [])
    (hall : ∀ v ∈ xs, v = c) : nanmax xs = c := by
  cases xs with
  | nil => exact absurd rfl hne
  | cons a l =>
    have ha : a = c := hall a (by simp)
    rw [nanmax, ha]
    exact foldl_max_const l fun v hv => hall v (by simp [hv])

lemma pAt_const {sorted : List ℚ} {c : ℚ} (hall : ∀ v ∈ sorted, v = c)
    {pos : ℚ} (hi : (⌊pos⌋).toNat < sorted.length) :
    pAt sorted pos = c := by
  have ha : sorted.getD (⌊pos⌋).toNat 0 = c := by
    rw [List.getD_eq_getElem _ _ hi]
    exact hall _ (List.getElem_mem hi)
  rw [pAt, ha]
  by_cases hb : (⌊pos⌋).toNat + 1 < sorted.length
  · rw [List.getD_eq_getElem _ _ hb]
    rw [hall _ (List.getElem_mem hb)]
    ring
  · rw [List.getD_eq_default _ _ (by omega)]
    ring

lemma percentile_const {xs : List ℚ} {c q : ℚ} (hne : xs ≠ [])
    (hall : ∀ v ∈ xs, v = c) (h0 : 0 ≤ q) (h1 : q ≤ 100) :
    percentile xs q = c := by
  have hperm : List.Perm (sortedOf xs) xs := List.perm_insertionSort _ xs
  have halls : ∀ v ∈ sortedOf xs, v = c := fun v hv => hall v (hperm.mem_iff.mp hv)
  have hlen : (sortedOf xs).length = xs.length := hperm.length_eq
  have hn1 : 1 ≤ (sortedOf xs).length := by
    rw [hlen]
    cases xs with
    | nil => exact absurd rfl hne
    | cons a l => simp
  rw [percentile, if_neg (by omega)]
  apply pAt_const halls
  have hc1 : (1 : ℚ) ≤ ((sortedOf xs).length : ℚ) := by exact_mod_cast hn1
  have hposle : q * (((sortedOf xs).length : ℚ) - 1) / 100 ≤
      ((sortedOf xs).length : ℚ) - 1 := by
    have h2 : q * (((sortedOf xs).length : ℚ) - 1) ≤
        100 * (((sortedOf xs).length : ℚ) - 1) :=
      mul_le_mul_of_nonneg_right h1 (by linarith)
    linarith
  have hfl : ⌊q * (((sortedOf xs).length : ℚ) - 1) / 100⌋ <
      ((sortedOf xs).length : ℤ) := by
    apply Int.floor_lt.mpr
    push_cast
    linarith
  omega

lemma percentile_bounds_const {xs : List ℚ} {c p_lo p_hi : ℚ} (hne : xs ≠ [])
    (hall : ∀ v ∈ xs, v = c)
    (hlo0 : 0 ≤ p_lo) (hlo1 : p_lo ≤ 100)
    (hhi0 : 0 ≤ (if p_hi ≤ p_lo then p_lo + 1 / 1000 else p_hi))
    (hhi1 : (if p_hi ≤ p_lo then p_lo + 1 / 1000 else p_hi) ≤ 100) :
    percentile_bounds p_lo p_hi xs = (c, c + 1 / 1000000) := by
  have hlo := percentile_const hne hall hlo0 hlo1
  have hhi := percentile_const hne hall hhi0 hhi1
  simp only [percentile_bounds, hlo, hhi]
  rw [if_pos (by norm_num), nanmin_const hne hall, nanmax_const hne hall]

lemma truncToZero_mem_gray {q : ℚ} (h0 : 0 ≤ q) (h1 : q ≤ 255) :
    0 ≤ truncToZero q ∧ truncToZero q ≤ 255 := by
  rw [truncToZero_of_nonneg h0]
  refine ⟨Int.floor_nonneg.mpr h0, ?_⟩
  have h := Int.floor_le_floor h1
  have h255 : ⌊(255 : ℚ)⌋ = 255 := by norm_num
  omega

/-- C7: degenerate percentile span.  If the computed percentile span of the
flattened grid is degenerate (`hi − lo < 1e-12`; non-finite values do not
exist in the rational model, so that disjunct of the source's test is
vacuous), the scaler falls back to the range `[min, max + 1e-6]`.  In
particular for a non-empty grid whose values are all equal to `c` the
fallback branch is taken, the effective range is `[c, c + 1e-6]`, and every
output pixel equals the same determined gray level
`post_to_gray powFn gamma invert 0`.  Moreover whenever the gamma power is
skipped, every output pixel lies in `[0, 255]`: the transform always returns
a fully defined 8-bit grid. -/
theorem percentile_degenerate_spec (powFn : ℚ → ℚ → ℚ) (gamma : ℚ)
    (invert : Bool) (p_lo p_hi : ℚ) (grid : List (List ℚ)) (c : ℚ)
    (hlo0 : 0 ≤ p_lo) (hlo1 : p_lo ≤ 100)
    (hhi0 : 0 ≤ (if p_hi ≤ p_lo then p_lo + 1 / 1000 else p_hi))
    (hhi1 : (if p_hi ≤ p_lo then p_lo + 1 / 1000 else p_hi) ≤ 100) :
    (percentile grid.flatten (if p_hi ≤ p_lo then p_lo + 1 / 1000 else p_hi) -
        percentile grid.flatten p_lo < 1 / 1000000000000 →
      percentile_bounds p_lo p_hi grid.flatten =
        (nanmin grid.flatten, nanmax grid.flatten + 1 / 1000000)) ∧
    (grid.flatten ≠ [] → (∀ v ∈ grid.flatten, v = c) →
      percentile_bounds p_lo p_hi grid.flatten = (c, c + 1 / 1000000) ∧
      ∀ row ∈ percentile_to_gray powFn gamma invert p_lo p_hi grid,
        ∀ pix ∈ row, pix = post_to_gray powFn gamma invert 0) ∧
    (¬ (0 < gamma ∧ 1 / 1000000 < |gamma - 1|) →
      ∀ row ∈ percentile_to_gray powFn gamma invert p_lo p_hi grid,
        ∀ pix ∈ row, 0 ≤ pix ∧ pix ≤ 255) := by
  refine ⟨?_, ?_, ?_⟩
  · intro hdeg
    simp only [percentile_bounds]
    rw [if_pos (by linarith)]
  · intro hne hall
    have hbounds := percentile_bounds_const hne hall hlo0 hlo1 hhi0 hhi1
    refine ⟨hbounds, ?_⟩
    intro row hrow pix hpix
    simp only [percentile_to_gray, List.mem_map] at hrow
    obtain ⟨row0, hrow0, rfl⟩ := hrow
    rw [List.mem_map] at hpix
    obtain ⟨v, hv, rfl⟩ := hpix
    have hvc : v = c := hall v (List.mem_flatten.mpr ⟨row0, hrow0, hv⟩)
    rw [hbounds, hvc]
    norm_num [clamp01]
  · intro hskip row hrow pix hpix
    simp only [percentile_to_gray, List.mem_map] at hrow
    obtain ⟨row0, hrow0, rfl⟩ := hrow
    rw [List.mem_map] at hpix
    obtain ⟨v, hv, rfl⟩ := hpix
    have hy0 := clamp01_nonneg ((v - (percentile_bounds p_lo p_hi grid.flatten).1) /
      ((percentile_bounds p_lo p_hi grid.flatten).2 -
        (percentile_bounds p_lo p_hi grid.flatten).1))
    have hy1 := clamp01_le_one ((v - (percentile_bounds p_lo p_hi grid.flatten).1) /
      ((percentile_bounds p_lo p_hi grid.flatten).2 -
        (percentile_bounds p_lo p_hi grid.flatten).1))
    rw [post_to_gray]
    simp only [if_neg hskip]
    cases invert with
    | false =>
      simp only [Bool.false_eq_true, if_false]
      exact truncToZero_mem_gray (by nlinarith) (by nlinarith)
    | true =>
      simp only [if_true]
      exact truncToZero_mem_gray (by nlinarith) (by nlinarith)

theorem percentile_degenerate_spec_witness :
    (0 ≤ (5 : ℚ) ∧ (5 : ℚ) ≤ 100 ∧ ([[2, 2], [2, 2]] : List (List ℚ)).flatten ≠ []) ∧
    (percentile_bounds 5 95 ([[2, 2], [2, 2]] : List (List ℚ)).flatten =
        (2, 2 + 1 / 1000000) ∧
      ∀ row ∈ percentile_to_gray (fun y _ => y) 1 false 5 95
          ([[2, 2], [2, 2]] : List (List ℚ)),
        ∀ pix ∈ row, pix = post_to_gray (fun y _ => y) 1 false 0) :=
  ⟨⟨by norm_num, by norm_num, by simp⟩,
    (percentile_degenerate_spec (fun y _ => y) 1 false 5 95 [[2, 2], [2, 2]] 2
      (by norm_num) (by norm_num) (by norm_num) (by norm_num)).2.1
      (by simp) (by decide)⟩

/- ----------------------------------------------------------------- -/
/- Acquisition: `AcquisitionWorker._on_block` and the bounded queue   -/
/- ----------------------------------------------------------------- -/

/-- One decoded callback block: the `payload` dict built by
`AcquisitionWorker._on_block`, stripped to the fields the claims are about
(`cb_lines` rows, `point_count` samples per row, the reshaped grid). -/
structure Block where
  cb_lines : ℕ
  point_count : ℕ
  grid : List (List ℚ)
  deriving DecidableEq

/-- `arr.reshape((num_lines, point_count))`: split a flat sample list into
`n` rows of `P` entries each. -/
def chunkN (P n : ℕ) (xs : List ℚ) : List (List ℚ) :=
  match n with
  | 0 => []
  | n + 1 => xs.take P :: chunkN P n (xs.drop P)

/-- The line count computed by `_on_block` (acquisition.py lines 208-212):
prefer the vendor hint `cb_lines` whenever it is positive and consistent
(`cb_lines * point_count <= total`); otherwise recompute as
`total // point_count`. -/
def num_lines (cb : ℤ) (Pn total : ℕ) : ℕ :=
  if 0 < cb ∧ cb.toNat * Pn ≤ total then cb.toNat else total / Pn

/-- Embedding of the decoding part of `AcquisitionWorker._on_block`
(acquisition.py lines 187-221).  `cb` is `int(scan_rate)` (the vendor's
"lines in this block" hint), `point_count` the per-line sample count, and
`data` the float32 samples decoded from the byte payload — the source's
`size` is `4 * data.length`, so `size <= 0` is `data.length = 0`, and a byte
count that is not a multiple of 4 raises inside `np.frombuffer` and is
swallowed by the handler's blanket `except`, producing no block either way.
Returns the constructed block, or `none` when the callback is dropped. -/
def mk_block (cb point_count : ℤ) (data : List ℚ) : Option Block :=
  if point_count ≤ 0 ∨ data.length = 0 then none
  else if num_lines cb point_count.toNat data.length = 0 then none
  else some
    { cb_lines := num_lines cb point_count.toNat data.length,
      point_count := point_count.toNat,
      grid := chunkN point_count.toNat (num_lines cb point_count.toNat data.length)
        (data.take (num_lines cb point_count.toNat data.length * point_count.toNat)) }

/-- Embedding of the queue step of `AcquisitionWorker._on_block`
(acquisition.py lines 236-241): `queue.Queue(maxsize = cap)` with
`if full: get_nowait()` before `put_nowait` — a non-blocking drop-oldest
enqueue.  The front of the list is the oldest element. -/
def enqueue {α : Type} (cap : ℕ) (q : List α) (x : α) : List α :=
  if cap ≤ q.length then q.drop 1 ++ [x] else q ++ [x]

/-- Full effect of one `_on_block` callback on the queue: decode, then
enqueue the block if one was produced.  Malformed callbacks leave the queue
untouched, and the body never raises to the caller (every failure path in
the source is a `return` or the blanket `except`). -/
def on_block_step (cap : ℕ) (cb point_count : ℤ) (data : List ℚ)
    (q : List Block) : List Block :=
  match mk_block cb point_count data with
  | none => q
  | some b => enqueue cap q b

lemma chunkN_length (P n : ℕ) (xs : List ℚ) : (chunkN P n xs).length = n := by
  induction n generalizing xs with
  | zero => rfl
  | succ n ih => simp [chunkN, ih]

lemma chunkN_rows (P n : ℕ) (xs : List ℚ) (h : xs.length = n * P) :
    ∀ row ∈ chunkN P n xs, row.length = P := by
  induction n generalizing xs with
  | zero => intro row hrow; simp [chunkN] at hrow
  | succ n ih =>
    intro row hrow
    rw [Nat.succ_mul] at h
    simp only [chunkN, List.mem_cons] at hrow
    rcases hrow with rfl | hrow
    · rw [List.length_take]
      omega
    · exact ih (xs.drop P) (by rw [List.length_drop]; omega) row hrow

lemma chunkN_flatten (P n : ℕ) (xs : List ℚ) (h : xs.length = n * P) :
    (chunkN P n xs).flatten = xs := by
  induction n generalizing xs with
  | zero =>
    simp only [chunkN, List.flatten_nil]
    exact (List.length_eq_zero.mp (by omega : xs.length = 0)).symm
  | succ n ih =>
    rw [Nat.succ_mul] at h
    simp only [chunkN, List.flatten_cons]
    rw [ih (xs.drop P) (by rw [List.length_drop]; omega)]
    exact List.take_append_drop P xs

lemma num_lines_mul_le (cb : ℤ) (Pn total : ℕ) :
    num_lines cb Pn total * Pn ≤ total := by
  rw [num_lines]
  split_ifs with h
  · exact h.2
  · exact Nat.div_mul_le_self total Pn

/-- C2 counterexample: a callback whose payload decodes to 8 samples with
`point_count = 2` but `lines_hint = 1` constructs a block with 1 row (the
source trusts the hint whenever `hint · P ≤ total`), not the
`floor(8 / 2) = 4` rows the claim demands for every value of the hint. -/
theorem mk_block_rows_counterexample :
    ¬ ((mk_block 1 2 [0, 1, 2, 3, 4, 5, 6, 7]).map (fun b => b.grid.length) =
      some (8 / 2)) := by
  decide

/-- C2 (amended): block decoding shape.  For `point_count = P ≥ 1` and a
non-empty decoded sample list, let `L = lines_hint` if `0 < lines_hint` and
`lines_hint · P ≤ total` (the hint is trusted whenever it fits within the
decoded sample count), and `L = ⌊total / P⌋` otherwise — in particular
`L = ⌊total / P⌋` whenever the hint does not fit, for every value of the
`lines_hint` argument.  If `L = 0` no block is constructed; otherwise the
grid has exactly `L` rows of `P` columns each, built from the first `L·P`
samples: the remainder is truncated, never padded. -/
theorem mk_block_shape (cb P : ℤ) (data : List ℚ)
    (hP : 0 < P) (hd : data ≠ []) :
    (num_lines cb P.toNat data.length = 0 → mk_block cb P data = none) ∧
    (num_lines cb P.toNat data.length ≠ 0 →
      mk_block cb P data = some
        { cb_lines := num_lines cb P.toNat data.length,
          point_count := P.toNat,
          grid := chunkN P.toNat (num_lines cb P.toNat data.length)
            (data.take (num_lines cb P.toNat data.length * P.toNat)) } ∧
      (chunkN P.toNat (num_lines cb P.toNat data.length)
          (data.take (num_lines cb P.toNat data.length * P.toNat))).length =
        num_lines cb P.toNat data.length ∧
      (∀ row ∈ chunkN P.toNat (num_lines cb P.toNat data.length)
          (data.take (num_lines cb P.toNat data.length * P.toNat)),
        row.length = P.toNat) ∧
      (chunkN P.toNat (num_lines cb P.toNat data.length)
          (data.take (num_lines cb P.toNat data.length * P.toNat))).flatten =
        data.take (num_lines cb P.toNat data.length * P.toNat) ∧
      num_lines cb P.toNat data.length * P.toNat ≤ data.length) := by
  have hcond : ¬ (P ≤ 0 ∨ data.length = 0) := by
    push_neg
    exact ⟨by omega, fun h => hd (List.length_eq_zero.mp h)⟩
  constructor
  · intro hL
    rw [mk_block, if_neg hcond, if_pos hL]
  · intro hL
    have hle := num_lines_mul_le cb P.toNat data.length
    have htl : (data.take (num_lines cb P.toNat data.length * P.toNat)).length =
        num_lines cb P.toNat data.length * P.toNat := by
      rw [List.length_take]
      omega
    refine ⟨?_, chunkN_length _ _ _, chunkN_rows _ _ _ htl, chunkN_flatten _ _ _ htl, hle⟩
    rw [mk_block, if_neg hcond, if_neg hL]

theorem mk_block_shape_witness :
    ((0 : ℤ) < 2 ∧ ([0, 1, 2, 3, 4, 5, 6, 7] : List ℚ) ≠ [] ∧
      num_lines 1 (2 : ℤ).toNat ([0, 1, 2, 3, 4, 5, 6, 7] : List ℚ).length ≠ 0) ∧
    (mk_block 1 2 [0, 1, 2, 3, 4, 5, 6, 7] = some
        { cb_lines := num_lines 1 (2 : ℤ).toNat ([0, 1, 2, 3, 4, 5, 6, 7] : List ℚ).length,
          point_count := (2 : ℤ).toNat,
          grid := chunkN (2 : ℤ).toNat
            (num_lines 1 (2 : ℤ).toNat ([0, 1, 2, 3, 4, 5, 6, 7] : List ℚ).length)
            (([0, 1, 2, 3, 4, 5, 6, 7] : List ℚ).take
              (num_lines 1 (2 : ℤ).toNat ([0, 1, 2, 3, 4, 5, 6, 7] : List ℚ).length *
                (2 : ℤ).toNat)) } ∧
      (chunkN (2 : ℤ).toNat
          (num_lines 1 (2 : ℤ).toNat ([0, 1, 2, 3, 4, 5, 6, 7] : List ℚ).length)
          (([0, 1, 2, 3, 4, 5, 6, 7] : List ℚ).take
            (num_lines 1 (2 : ℤ).toNat ([0, 1, 2, 3, 4, 5, 6, 7] : List ℚ).length *
              (2 : ℤ).toNat))).length =
        num_lines 1 (2 : ℤ).toNat ([0, 1, 2, 3, 4, 5, 6, 7] : List ℚ).length ∧
      (∀ row ∈ chunkN (2 : ℤ).toNat
          (num_lines 1 (2 : ℤ).toNat ([0, 1, 2, 3, 4, 5, 6, 7] : List ℚ).length)
          (([0, 1, 2, 3, 4, 5, 6, 7] : List ℚ).take
            (num_lines 1 (2 : ℤ).toNat ([0, 1, 2, 3, 4, 5, 6, 7] : List ℚ).length *
              (2 : ℤ).toNat)),
        row.length = (2 : ℤ).toNat) ∧
      (chunkN (2 : ℤ).toNat
          (num_lines 1 (2 : ℤ).toNat ([0, 1, 2, 3, 4, 5, 6, 7] : List ℚ).length)
          (([0, 1, 2, 3, 4, 5, 6, 7] : List ℚ).take
            (num_lines 1 (2 : ℤ).toNat ([0, 1, 2, 3, 4, 5, 6, 7] : List ℚ).length *
              (2 : ℤ).toNat))).flatten =
        ([0, 1, 2, 3, 4, 5, 6, 7] : List ℚ).take
          (num_lines 1 (2 : ℤ).toNat ([0, 1, 2, 3, 4, 5, 6, 7] : List ℚ).length *
            (2 : ℤ).toNat) ∧
      num_lines 1 (2 : ℤ).toNat ([0, 1, 2, 3, 4, 5, 6, 7] : List ℚ).length *
          (2 : ℤ).toNat ≤ ([0, 1, 2, 3, 4, 5, 6, 7] : List ℚ).length) :=
  ⟨⟨by decide, by simp, by decide⟩,
    (mk_block_shape 1 2 [0, 1, 2, 3, 4, 5, 6, 7] (by decide) (by simp)).2 (by decide)⟩

lemma enqueue_foldl {α : Type} (cap : ℕ) (hcap : 0 < cap) :
    ∀ (l q : List α), q.length ≤ cap →
      l.foldl (enqueue cap) q = (q ++ l).drop (q.length + l.length - cap) := by
  intro l
  induction l with
  | nil =>
    intro q hq
    simp [Nat.sub_eq_zero_of_le hq]
  | cons x l ih =>
    intro q hq
    rw [List.foldl_cons]
    by_cases hfull : cap ≤ q.length
    · have hq1 : 1 ≤ q.length := by omega
      have henq : enqueue cap q x = q.drop 1 ++ [x] := by
        rw [enqueue, if_pos hfull]
      have hlen1 : (q.drop 1 ++ [x]).length = cap := by
        simp only [List.length_append, List.length_drop, List.length_cons,
          List.length_nil]
        omega
      rw [henq, ih _ (le_of_eq hlen1), hlen1]
      have hsplit : (q.drop 1 ++ [x]) ++ l = (q ++ x :: l).drop 1 := by
        rw [List.append_assoc, List.singleton_append,
          List.drop_append_of_le_length hq1]
      rw [hsplit, List.drop_drop]
      congr 1
      simp only [List.length_cons]
      omega
    · have henq : enqueue cap q x = q ++ [x] := by
        rw [enqueue, if_neg hfull]
      rw [henq, ih _ (by simp only [List.length_append, List.length_cons,
        List.length_nil]; omega)]
      rw [List.append_assoc, List.singleton_append]
      congr 1
      simp only [List.length_append, List.length_cons, List.length_nil]
      omega

/-- C5: drop-oldest ingestion queue.  `enqueue` is a total function of the
queue state (it never blocks and never fails from the caller's perspective):
at capacity it evicts the oldest queued item — the front — to admit the new
one, and it never grows the queue beyond `cap`.  Enqueuing `cap + 1` items
into an empty queue with no intervening dequeues leaves exactly the last
`cap` items in FIFO order, and when the items are distinct the first
(oldest) original item is absent. -/
theorem enqueue_drop_oldest {α : Type} (cap : ℕ) (q : List α) (x : α)
    (items : List α) (hcap : 0 < cap) :
    (q.length = cap → enqueue cap q x = q.drop 1 ++ [x]) ∧
    (q.length ≤ cap → (enqueue cap q x).length ≤ cap) ∧
    (items.length = cap + 1 →
      items.foldl (enqueue cap) [] = items.drop 1 ∧
      (items.foldl (enqueue cap) []).length = cap ∧
      (items.Nodup → ∀ a ∈ items.take 1, a ∉ items.foldl (enqueue cap) [])) := by
  refine ⟨?_, ?_, ?_⟩
  · intro h
    rw [enqueue, if_pos (le_of_eq h.symm)]
  · intro h
    rw [enqueue]
    split_ifs with hfull
    · simp only [List.length_append, List.length_drop, List.length_cons,
        List.length_nil]
      omega
    · simp only [List.length_append, List.length_cons, List.length_nil]
      omega
  · intro hlen
    have hfold := enqueue_foldl cap hcap items []
      (by simp only [List.length_nil]; omega)
    simp only [List.nil_append, List.length_nil, Nat.zero_add] at hfold
    rw [hlen, Nat.add_sub_cancel_left] at hfold
    refine ⟨hfold, ?_, ?_⟩
    · rw [hfold, List.length_drop, hlen]
      omega
    · intro hnd a ha
      cases items with
      | nil => simp at hlen
      | cons b rest =>
        simp only [List.take_succ_cons, List.take_zero,
          List.mem_singleton] at ha
        subst ha
        rw [hfold, List.drop_succ_cons, List.drop_zero]
        exact (List.nodup_cons.mp hnd).1

theorem enqueue_drop_oldest_witness :
    0 < 6 ∧
    (([0, 1, 2, 3, 4, 5, 6] : List ℕ).foldl (enqueue 6) [] =
        ([0, 1, 2, 3, 4, 5, 6] : List ℕ).drop 1 ∧
      (([0, 1, 2, 3, 4, 5, 6] : List ℕ).foldl (enqueue 6) []).length = 6 ∧
      (([0, 1, 2, 3, 4, 5, 6] : List ℕ).Nodup →
        ∀ a ∈ ([0, 1, 2, 3, 4, 5, 6] : List ℕ).take 1,
          a ∉ ([0, 1, 2, 3, 4, 5, 6] : List ℕ).foldl (enqueue 6) [])) :=
  ⟨by decide,
    (enqueue_drop_oldest 6 [] 0 [0, 1, 2, 3, 4, 5, 6] (by decide)).2.2 (by decide)⟩

/-- C9: malformed callbacks are dropped silently.  A non-positive
`point_count`, an empty payload (`size ≤ 0`), or a decoded line count of
zero produce no block: the handler enqueues nothing and leaves the queue
exactly unchanged, so the single offending callback does not affect any
subsequent block; the model is a total function, matching the source, where
every failure path is a `return` (or the blanket `except`) and nothing is
raised to the caller. -/
theorem on_block_malformed (cap : ℕ) (cb P : ℤ) (data : List ℚ)
    (q : List Block)
    (h : P ≤ 0 ∨ data = [] ∨ num_lines cb P.toNat data.length = 0) :
    mk_block cb P data = none ∧ on_block_step cap cb P data q = q := by
  have hnone : mk_block cb P data = none := by
    rcases h with h | h | h
    · rw [mk_block, if_pos (Or.inl h)]
    · rw [mk_block, if_pos (Or.inr (by rw [h]; rfl))]
    · by_cases h2 : P ≤ 0 ∨ data.length = 0
      · rw [mk_block, if_pos h2]
      · rw [mk_block, if_neg h2, if_pos h]
  exact ⟨hnone, by rw [on_block_step, hnone]⟩

theorem on_block_malformed_witness :
    ((-1 : ℤ) ≤ 0 ∨ ([] : List ℚ) = [] ∨
      num_lines 0 (-1 : ℤ).toNat ([] : List ℚ).length = 0) ∧
    (mk_block 0 (-1) [] = none ∧ on_block_step 6 0 (-1) [] [] = []) :=
  ⟨Or.inl (by decide), on_block_malformed 6 0 (-1) [] [] (Or.inl (by decide))⟩

/- ----------------------------------------------------------------- -/
/- Stream cache: `MainWindow.on_data_ready` / `_pull_selected_payload` -/
/- ----------------------------------------------------------------- -/

/-- Stream key `(channel, kind)`, kind being "amp" or "phase". -/
abbrev StreamKey := ℤ × String

/-- Embedding of `MainWindow.on_data_ready` (main_window.py lines 269-275):
`self._latest_by_stream[(ch, kind)] = payload` — a publish overwrites any
previous unread block for the key (entries are overwritten, never queued). -/
def on_data_ready (cache : StreamKey → Option Block) (k : StreamKey)
    (b : Block) : StreamKey → Option Block :=
  fun k2 => if k2 = k then some b else cache k2

/-- Embedding of `MainWindow._pull_selected_payload` (main_window.py lines
277-288) at the selected key: `dict.get` followed by `dict.pop` — returns
the cached block (`none` signals "nothing new") together with the cache
state afterwards. -/
def pull_selected_payload (cache : StreamKey → Option Block) (k : StreamKey) :
    Option Block × (StreamKey → Option Block) :=
  match cache k with
  | none => (none, cache)
  | some b => (some b, fun k2 => if k2 = k then none else cache k2)

/-- C6: latest-wins stream cache.  Publishing two blocks in order for the
same key with no intervening take leaves only the second retrievable; a take
that returns a block clears the entry, so the cache holds nothing for that
key until the next publish; and a take on an empty key signals "nothing new"
and leaves the cache unchanged. -/
theorem stream_cache_spec (cache : StreamKey → Option Block) (k : StreamKey)
    (b1 b2 b : Block) :
    ((pull_selected_payload
        (on_data_ready (on_data_ready cache k b1) k b2) k).1 = some b2) ∧
    (cache k = some b →
      (pull_selected_payload cache k).1 = some b ∧
      (pull_selected_payload cache k).2 k = none) ∧
    (cache k = none → pull_selected_payload cache k = (none, cache)) := by
  refine ⟨?_, ?_, ?_⟩
  · simp [pull_selected_payload, on_data_ready]
  · intro h
    simp [pull_selected_payload, h]
  · intro h
    simp [pull_selected_payload, h]

/-- Concrete sample blocks for the cache witness. -/
def blkA : Block := { cb_lines := 1, point_count := 1, grid := [[0]] }

def blkB : Block := { cb_lines := 1, point_count := 1, grid := [[1]] }

theorem stream_cache_spec_witness :
    ((fun _ : StreamKey => (none : Option Block)) (1, "phase") = none) ∧
    ((pull_selected_payload
        (on_data_ready (on_data_ready (fun _ => none) (1, "phase") blkA)
          (1, "phase") blkB) (1, "phase")).1 = some blkB) ∧
    (pull_selected_payload (fun _ => none) (1, "phase") =
      (none, fun _ => none)) :=
  ⟨rfl,
    (stream_cache_spec (fun _ => none) (1, "phase") blkA blkB blkA).1,
    (stream_cache_spec (fun _ => none) (1, "phase") blkA blkB blkA).2.2 rfl⟩

/- ----------------------------------------------------------------- -/
/- Waterfall renderer: `WaterfallRenderer.push_block`                 -/
/- ----------------------------------------------------------------- -/

/-- State of `WaterfallRenderer` (waterfall_renderer.py lines 7-20): fixed
height, optional allocated width and buffer (both `None` until `ensure`
first succeeds).  Buffer entries are uint8 values, modelled as naturals. -/
structure WaterfallRenderer where
  wf_height : ℕ
  wf_width : Option ℕ
  wf : Option (List (List ℕ))
  deriving DecidableEq

/-- Embedding of `WaterfallRenderer.ensure` (waterfall_renderer.py lines
13-20): allocate (or reallocate) a zeroed height × width buffer when the
width is positive and differs from the current allocation. -/
def ensure (r : WaterfallRenderer) (width : ℤ) : WaterfallRenderer :=
  if width ≤ 0 then r
  else if r.wf ≠ none ∧ r.wf_width = some width.toNat then r
  else { r with
    wf_width := some width.toNat,
    wf := some (List.replicate r.wf_height (List.replicate width.toNat 0)) }

/-- The `gray_block.ndim != 2` / `gray_block.shape[1]` test of `push_block`
on a list of rows: `np.asarray` yields a 2-d array exactly for a non-empty
rectangular nesting, whose column count is the common row length. -/
def rect_width (g : List (List ℕ)) : Option ℕ :=
  match g with
  | [] => none
  | r :: rs => if rs.all (fun row => row.length = r.length) then some r.length
    else none

/-- Embedding of `WaterfallRenderer.push_block` (waterfall_renderer.py lines
22-38).  `np.asarray(gray_block, dtype=np.uint8)` reduces entries mod 256;
for a buffer holding its full height of rows, `wf[:-n] = wf[n:]` followed by
`wf[-n:] = gray_block` is `buf.drop n ++ gray_block`, and the overflow
assignment `wf[:, :] = gray_block[-H:, :]` keeps the last `H` rows, i.e.
`drop (n - H)`. -/
def push_block (r : WaterfallRenderer) (gray_block : List (List ℕ)) :
    WaterfallRenderer :=
  match r.wf with
  | none => r
  | some buf =>
    match rect_width (gray_block.map (List.map (fun v => v % 256))) with
    | none => r
    | some w =>
      if r.wf_width ≠ some w then r
      else
        let gb := gray_block.map (List.map (fun v => v % 256))
        if gb.length = 0 then r
        else if r.wf_height ≤ gb.length then
          { r with wf := some (gb.drop (gb.length - r.wf_height)) }
        else
          { r with wf := some (buf.drop gb.length ++ gb) }

lemma rect_width_map (f : ℕ → ℕ) (g : List (List ℕ)) :
    rect_width (g.map (List.map f)) = rect_width g := by
  cases g with
  | nil => rfl
  | cons r rs =>
    simp [rect_width, List.all_map, Function.comp_def]

lemma map_mod_eq_self {g : List (List ℕ)}
    (h : ∀ row ∈ g, ∀ v ∈ row, v < 256) :
    g.map (List.map (fun v => v % 256)) = g := by
  calc g.map (List.map (fun v => v % 256)) = g.map id := by
        apply List.map_congr_left
        intro row hrow
        calc List.map (fun v => v % 256) row = List.map id row := by
              apply List.map_congr_left
              intro v hv
              exact Nat.mod_eq_of_lt (h row hrow v hv)
          _ = row := List.map_id row
    _ = g := List.map_id g

/-- C4: waterfall scroll.  For a renderer whose buffer holds its full height
`H` of rows at the allocated width `W`, pushing a rectangular `n × W` uint8
grid with `n ≥ 1`: if `n ≥ H` the buffer becomes the grid's last `H` rows
(so pushing `H + 1` rows yields rows `1..H` of the grid); if `n < H` the
buffer becomes `buf[n..H) ++ grid`, i.e. rows `[0, H−n)` of the new buffer
equal rows `[n, H)` of the old one and the last `n` rows equal the pushed
grid exactly. -/
theorem push_block_spec (r : WaterfallRenderer) (buf grid : List (List ℕ))
    (W : ℕ) (hwf : r.wf = some buf) (hw : r.wf_width = some W)
    (hbuf : buf.length = r.wf_height)
    (hrect : rect_width grid = some W) (hn : 1 ≤ grid.length)
    (hlt : ∀ row ∈ grid, ∀ v ∈ row, v < 256) :
    (r.wf_height ≤ grid.length →
      (push_block r grid).wf = some (grid.drop (grid.length - r.wf_height))) ∧
    (grid.length < r.wf_height →
      (push_block r grid).wf = some (buf.drop grid.length ++ grid) ∧
      (buf.drop grid.length ++ grid).take (r.wf_height - grid.length) =
        buf.drop grid.length ∧
      (buf.drop grid.length ++ grid).drop (r.wf_height - grid.length) =
        grid) := by
  obtain ⟨H, ow, owf⟩ := r
  dsimp only at hwf hw hbuf ⊢
  subst hwf hw
  have hmod := map_mod_eq_self hlt
  constructor
  · intro hge
    simp only [push_block, hmod, hrect]
    rw [if_neg (by simp), if_neg (by omega), if_pos hge]
  · intro hlt2
    have hlen2 : (buf.drop grid.length).length = H - grid.length := by
      rw [List.length_drop, hbuf]
    refine ⟨?_, List.take_left' hlen2, List.drop_left' hlen2⟩
    simp only [push_block, hmod, hrect]
    rw [if_neg (by simp), if_neg (by omega), if_neg (by omega)]

/-- Concrete renderer state for the push witnesses: height 2, width 1,
buffer rows `[10]`, `[20]`. -/
def rTest : WaterfallRenderer :=
  { wf_height := 2, wf_width := some 1, wf := some [[10], [20]] }

theorem push_block_spec_witness :
    (rTest.wf = some [[10], [20]] ∧ rect_width [[5], [6], [7]] = some 1 ∧
      rTest.wf_height ≤ ([[5], [6], [7]] : List (List ℕ)).length) ∧
    (push_block rTest [[5], [6], [7]]).wf =
      some (([[5], [6], [7]] : List (List ℕ)).drop
        (([[5], [6], [7]] : List (List ℕ)).length - rTest.wf_height)) :=
  ⟨⟨rfl, by decide, by decide⟩,
    (push_block_spec rTest [[10], [20]] [[5], [6], [7]] 1 rfl rfl rfl
      (by decide) (by decide) (by decide)).1 (by decide)⟩

/-- C10: push is a no-op on bad input.  When no buffer has been allocated
yet, or the pushed grid is not a rectangular 2-d array (including the
zero-row case `[]`), or its column count differs from the allocated width,
`push_block` returns the state unchanged: buffer contents, width and height
are all exactly as before. -/
theorem push_block_noop (r : WaterfallRenderer) (g : List (List ℕ)) :
    (r.wf = none → push_block r g = r) ∧
    (rect_width g = none → push_block r g = r) ∧
    (∀ w, rect_width g = some w → r.wf_width ≠ some w → push_block r g = r) ∧
    (g = [] → push_block r g = r) := by
  refine ⟨?_, ?_, ?_, ?_⟩
  · intro h
    cases hr : r.wf with
    | none => simp only [push_block, hr]
    | some buf => rw [hr] at h; exact absurd h (by simp)
  · intro h
    cases hr : r.wf with
    | none => simp only [push_block, hr]
    | some buf => simp only [push_block, hr, rect_width_map, h]
  · intro w hsome hne
    cases hr : r.wf with
    | none => simp only [push_block, hr]
    | some buf =>
      simp only [push_block, hr, rect_width_map, hsome]
      rw [if_pos hne]
  · intro h
    subst h
    cases hr : r.wf with
    | none => simp only [push_block, hr]
    | some buf => simp only [push_block, hr, List.map_nil, rect_width]

theorem push_block_noop_witness :
    ((⟨600, none, none⟩ : WaterfallRenderer).wf = none) ∧
    push_block ⟨600, none, none⟩ [[1]] = ⟨600, none, none⟩ :=
  ⟨rfl, (push_block_noop ⟨600, none, none⟩ [[1]]).1 rfl⟩

/- ----------------------------------------------------------------- -/
/- Click-to-column mapping: `MainWindow._x_to_col_exact`              -/
/- ----------------------------------------------------------------- -/

/-- Embedding of `MainWindow._x_to_col_exact` (main_window.py lines 300-333):
guard degenerate widths, clamp the click into `[0, dst_w − 1]`, map the
pixel center `x + 0.5` to a source coordinate, truncate with `int(...)`, and
clamp the column into `[0, src_w − 1]`. -/
def x_to_col_exact (src_w dst_w : ℤ) (x_px : ℚ) : ℤ :=
  if src_w ≤ 1 then 0
  else if dst_w ≤ 1 then 0
  else
    let x1 := if x_px < 0 then (0 : ℚ) else x_px
    let x2 := if ((dst_w : ℚ) - 1) < x1 then (dst_w : ℚ) - 1 else x1
    let col := truncToZero ((x2 + 1 / 2) * (src_w : ℚ) / (dst_w : ℚ))
    let col1 := if col < 0 then 0 else col
    if src_w - 1 < col1 then src_w - 1 else col1

/-- The slice of `MainWindow` state touched by `eventFilter` on a mouse
press: the stored source width (`_wf_src_w`), the display width, the
selected column spinbox, and the two time-series history deques. -/
structure UIState where
  wf_src_w : ℤ
  display_w : ℤ
  ts_col : ℤ
  ts_y : List ℚ
  ts_t : List ℚ
  deriving DecidableEq

/-- Embedding of the mouse-press branch of `MainWindow.eventFilter`
(main_window.py lines 336-355): map the click to a column, set the spinbox,
and clear the time-series history. -/
def handle_click (s : UIState) (x_px : ℚ) : UIState :=
  { s with
    ts_col := x_to_col_exact s.wf_src_w s.display_w x_px,
    ts_y := [], ts_t := [] }

/-- C8 counterexample: at `src_w = 4`, `dst_w = 1`, click `x = 0`, the
source's `dst_w <= 1` guard returns column 0, while the claimed formula
`⌊(clamped_x + 0.5) · src_w / dst_w⌋` (clamped x = 0) gives 2. -/
theorem x_to_col_counterexample :
    x_to_col_exact 4 1 0 ≠ ⌊((0 : ℚ) + 1 / 2) * 4 / 1⌋ := by
  have hL : x_to_col_exact 4 1 0 = 0 := by
    rw [x_to_col_exact, if_neg (by norm_num), if_pos (by norm_num)]
  have hR : ⌊((0 : ℚ) + 1 / 2) * 4 / 1⌋ = 2 := by
    rw [Int.floor_eq_iff]
    norm_num
  rw [hL, hR]
  decide

/-- C8 (amended): click-to-column mapping.  For `src_w ≥ 2` and `dst_w ≥ 2`
the selected column equals `⌊(pixel_x + 0.5) · src_w / dst_w⌋` with
`pixel_x` first clamped into the displayed range `[0, dst_w − 1]`; when
`src_w ≤ 1` or `dst_w ≤ 1` the function returns column 0 instead of the
formula; in every case (given `src_w ≥ 1`) the result lies in
`[0, src_w − 1]`; and on a click the time-series history is cleared while
the selected column is set to the mapped value. -/
theorem x_to_col_spec (src_w dst_w : ℤ) (x_px : ℚ) (s : UIState) :
    (2 ≤ src_w → 2 ≤ dst_w →
      x_to_col_exact src_w dst_w x_px =
        ⌊(min (max x_px 0) ((dst_w : ℚ) - 1) + 1 / 2) * (src_w : ℚ) /
          (dst_w : ℚ)⌋) ∧
    (src_w ≤ 1 ∨ dst_w ≤ 1 → x_to_col_exact src_w dst_w x_px = 0) ∧
    (1 ≤ src_w →
      0 ≤ x_to_col_exact src_w dst_w x_px ∧
      x_to_col_exact src_w dst_w x_px ≤ src_w - 1) ∧
    ((handle_click s x_px).ts_y = [] ∧ (handle_click s x_px).ts_t = [] ∧
      (handle_click s x_px).ts_col =
        x_to_col_exact s.wf_src_w s.display_w x_px) := by
  refine ⟨?_, ?_, ?_, rfl, rfl, rfl⟩
  · intro hs hd
    have hsq : (2 : ℚ) ≤ (src_w : ℚ) := by exact_mod_cast hs
    have hdq : (2 : ℚ) ≤ (dst_w : ℚ) := by exact_mod_cast hd
    simp only [x_to_col_exact]
    rw [if_neg (by omega : ¬ src_w ≤ 1), if_neg (by omega : ¬ dst_w ≤ 1)]
    have hx2 : (if ((dst_w : ℚ) - 1) < (if x_px < 0 then (0 : ℚ) else x_px)
        then (dst_w : ℚ) - 1 else (if x_px < 0 then (0 : ℚ) else x_px)) =
        min (max x_px 0) ((dst_w : ℚ) - 1) := by
      rcases lt_or_le x_px 0 with h0 | h0
      · rw [if_pos h0, if_neg (by linarith : ¬ ((dst_w : ℚ) - 1) < 0),
          max_eq_right (le_of_lt h0), min_eq_left (by linarith)]
      · rw [if_neg (not_lt.mpr h0), max_eq_left h0]
        rcases lt_or_le ((dst_w : ℚ) - 1) x_px with h1 | h1
        · rw [if_pos h1, min_eq_right (le_of_lt h1)]
        · rw [if_neg (not_lt.mpr h1), min_eq_left h1]
    rw [hx2]
    have hy0 : 0 ≤ min (max x_px 0) ((dst_w : ℚ) - 1) :=
      le_min (le_max_right _ _) (by linarith)
    have hy1 : min (max x_px 0) ((dst_w : ℚ) - 1) ≤ (dst_w : ℚ) - 1 :=
      min_le_right _ _
    have hu0 : 0 ≤ (min (max x_px 0) ((dst_w : ℚ) - 1) + 1 / 2) *
        (src_w : ℚ) / (dst_w : ℚ) :=
      div_nonneg (mul_nonneg (by linarith) (by linarith)) (by linarith)
    rw [truncToZero_of_nonneg hu0]
    have hcol0 : (0 : ℤ) ≤ ⌊(min (max x_px 0) ((dst_w : ℚ) - 1) + 1 / 2) *
        (src_w : ℚ) / (dst_w : ℚ)⌋ := Int.floor_nonneg.mpr hu0
    have hult : (min (max x_px 0) ((dst_w : ℚ) - 1) + 1 / 2) *
        (src_w : ℚ) / (dst_w : ℚ) < (src_w : ℚ) := by
      rw [div_lt_iff₀ (by linarith : (0 : ℚ) < (dst_w : ℚ))]
      have hlt2 : min (max x_px 0) ((dst_w : ℚ) - 1) + 1 / 2 < (dst_w : ℚ) := by
        linarith
      nlinarith
    have hcollt : ⌊(min (max x_px 0) ((dst_w : ℚ) - 1) + 1 / 2) *
        (src_w : ℚ) / (dst_w : ℚ)⌋ < src_w := Int.floor_lt.mpr hult
    rw [if_neg (not_lt.mpr hcol0), if_neg (by omega)]
  · intro h
    rcases le_or_lt src_w 1 with h1 | h1
    · rw [x_to_col_exact, if_pos h1]
    · have h2 : dst_w ≤ 1 := by omega
      rw [x_to_col_exact, if_neg (by omega), if_pos h2]
  · intro hs
    rcases le_or_lt src_w 1 with h1 | h1
    · rw [x_to_col_exact, if_pos h1]
      omega
    · rcases le_or_lt dst_w 1 with h2 | h2
      · rw [x_to_col_exact, if_neg (by omega), if_pos h2]
        omega
      · simp only [x_to_col_exact]
        rw [if_neg (by omega : ¬ src_w ≤ 1), if_neg (by omega : ¬ dst_w ≤ 1)]
        split_ifs <;> omega

theorem x_to_col_spec_witness :
    ((2 : ℤ) ≤ 4 ∧ (2 : ℤ) ≤ 8 ∧ ((4 : ℤ) ≤ 1 ∨ (1 : ℤ) ≤ 1)) ∧
    x_to_col_exact 4 8 3 =
      ⌊(min (max (3 : ℚ) 0) (((8 : ℤ) : ℚ) - 1) + 1 / 2) * ((4 : ℤ) : ℚ) /
        ((8 : ℤ) : ℚ)⌋ ∧
    x_to_col_exact 4 1 0 = 0 ∧
    (handle_click ⟨4, 8, 0, [1], [2]⟩ 3).ts_y = [] :=
  ⟨⟨by decide, by decide, Or.inr (by decide)⟩,
    (x_to_col_spec 4 8 3 ⟨4, 8, 0, [1], [2]⟩).1 (by decide) (by decide),
    (x_to_col_spec 4 1 0 ⟨4, 1, 0, [], []⟩).2.1 (Or.inr (by decide)),
    ((x_to_col_spec 4 8 3 ⟨4, 8, 0, [1], [2]⟩).2.2.2).1⟩
